import Mathlib

set_option maxRecDepth 1000000

/-!
Verification development for `fix.py` (better-teat): a utility that walks a
directory tree of HTML files and injects two fixed inline script blocks into
each file's head element, idempotently, with a `.bak` backup.

The development shallowly embeds the program: the BeautifulSoup document tree
becomes the inductive type `Node`, the tree-mutating functions of the source
(`ensure_head_exists`, `insert_top_cookie_gate`, `insert_end_scheduler`,
`find_exact_script`, `script_text_equal`) become pure Lean functions over
`Doc := List Node`, and the file-level orchestration (`process_file`) becomes
a function over an explicit file-system map.  Python string semantics
(`str.strip`, `str.rstrip`, `str.splitlines`) and CPython's UTF-8 decoder
with `errors="ignore"` are embedded to the fidelity the program exercises.
-/

namespace FixCookies

/-- A BeautifulSoup tree node: either a tag (element) with a name, an
attribute list and children, or a `NavigableString` text node. -/
inductive Node where
  | elem (name : String) (attrs : List (String × String)) (children : List Node)
  | text (s : String)

/-- A parsed document: the top-level children of the `BeautifulSoup` object
(`html.parser` does not synthesize `html`/`head`/`body` wrappers). -/
abbrev Doc := List Node

mutual

/-- Boolean structural equality on nodes (the derive handler does not support
this nested inductive). -/
def nodeBEq : Node → Node → Bool
  | .text s, .text t => s == t
  | .elem n a c, .elem n' a' c' => n == n' && a == a' && nodesBEq c c'
  | _, _ => false

/-- Boolean structural equality on node lists. -/
def nodesBEq : List Node → List Node → Bool
  | [], [] => true
  | x :: xs, y :: ys => nodeBEq x y && nodesBEq xs ys
  | _, _ => false

end

mutual

theorem nodeBEq_iff : ∀ a b : Node, nodeBEq a b = true ↔ a = b
  | .text _, .text _ => by simp [nodeBEq]
  | .text _, .elem .. => by simp [nodeBEq]
  | .elem .., .text _ => by simp [nodeBEq]
  | .elem n a c, .elem n' a' c' => by
    have h := nodesBEq_iff c c'
    simp [nodeBEq, Bool.and_eq_true, beq_iff_eq, h, Node.elem.injEq, and_assoc]

theorem nodesBEq_iff : ∀ a b : List Node, nodesBEq a b = true ↔ a = b
  | [], [] => by simp [nodesBEq]
  | [], _ :: _ => by simp [nodesBEq]
  | _ :: _, [] => by simp [nodesBEq]
  | x :: xs, y :: ys => by
    have h1 := nodeBEq_iff x y
    have h2 := nodesBEq_iff xs ys
    simp [nodesBEq, Bool.and_eq_true, h1, h2]

end

instance : DecidableEq Node := fun a b => decidable_of_iff _ (nodeBEq_iff a b)

/-- `tag.has_attr(name)`. -/
def hasAttr (n : Node) (key : String) : Bool :=
  match n with
  | .text _ => false
  | .elem _ attrs _ => attrs.any (fun p => p.1 = key)

mutual

/-- `soup.find_all(name)` restricted to one node: all elements with the given
name in the subtree, in document (pre-order) order. -/
def findAllN (nm : String) : Node → List Node
  | .text _ => []
  | .elem n a c => (if n = nm then [Node.elem n a c] else []) ++ findAllL nm c

/-- `soup.find_all(name)` over a forest, in document (pre-order) order. -/
def findAllL (nm : String) : List Node → List Node
  | [] => []
  | x :: xs => findAllN nm x ++ findAllL nm xs

end

/-- `soup.find(name)` / attribute access such as `soup.head`, `soup.html`:
the first matching element in document order, if any. -/
def findFirst (nm : String) (d : Doc) : Option Node :=
  (findAllL nm d).head?

mutual

/-- The bs4 `Tag.string` property: if the node has exactly one child and that
child is a `NavigableString`, return it; if the only child is a tag, recurse;
otherwise `None`. -/
def stringProp : Node → Option String
  | .text s => some s
  | .elem _ _ [c] => stringProp c
  | .elem _ _ _ => none

/-- The bs4 `Tag.get_text()` method: concatenation of all descendant strings
in document order. -/
def getText : Node → String
  | .text s => s
  | .elem _ _ c => getTextL c

/-- `get_text` over a list of children. -/
def getTextL : List Node → String
  | [] => ""
  | x :: xs => getText x ++ getTextL xs

end

/-! ### Python string semantics

`str.strip()` / `str.rstrip()` strip Unicode whitespace; `str.splitlines()`
splits at the line-boundary characters (treating `"\r\n"` as one boundary).
The character sets below are exactly CPython's. -/

/-- Characters CPython's `str.strip`/`str.rstrip` (no argument) remove. -/
def pyIsSpace (c : Char) : Bool :=
  c = ' ' || c = '\t' || c = '\n' || (c.toNat ≥ 0xb && c.toNat ≤ 0xd) ||
  (c.toNat ≥ 0x1c && c.toNat ≤ 0x1f) || c.toNat = 0x85 || c.toNat = 0xa0 ||
  c.toNat = 0x1680 || (c.toNat ≥ 0x2000 && c.toNat ≤ 0x200a) ||
  c.toNat = 0x2028 || c.toNat = 0x2029 || c.toNat = 0x202f ||
  c.toNat = 0x205f || c.toNat = 0x3000

/-- Line-boundary characters of CPython's `str.splitlines` (besides the
two-character boundary `"\r\n"`). -/
def pyIsLineBreak (c : Char) : Bool :=
  c = '\n' || (c.toNat ≥ 0xb && c.toNat ≤ 0xd) ||
  (c.toNat ≥ 0x1c && c.toNat ≤ 0x1e) || c.toNat = 0x85 ||
  c.toNat = 0x2028 || c.toNat = 0x2029

/-- `str.rstrip()` on a character list. -/
def pyRstrip (s : List Char) : List Char :=
  (s.reverse.dropWhile pyIsSpace).reverse

/-- `str.strip()` on a character list. -/
def pyStrip (s : List Char) : List Char :=
  pyRstrip (s.dropWhile pyIsSpace)

/-- `str.splitlines()` on a character list: `""` yields no lines, a final
line terminator does not produce a trailing empty line, and `"\r\n"` is a
single boundary. -/
def pySplitlines : List Char → List (List Char)
  | [] => []
  | '\r' :: '\n' :: rest => [] :: pySplitlines rest
  | c :: rest =>
    if pyIsLineBreak c then
      [] :: pySplitlines rest
    else
      match pySplitlines rest with
      | [] => [[c]]
      | l :: ls => (c :: l) :: ls

/-- The normalization the source applies to both sides before comparing:
`"\n".join(line.rstrip() for line in s.strip().splitlines())`. -/
def pyNormalize (s : String) : List Char :=
  List.intercalate ['\n'] ((pySplitlines (pyStrip s.data)).map pyRstrip)

/-- `script_text_equal(a, b)` from the source: `False` when either side is
`None`, otherwise equality of the two normalized texts. -/
def script_text_equal (a b : Option String) : Bool :=
  match a, b with
  | none, _ => false
  | _, none => false
  | some a, some b => pyNormalize a == pyNormalize b

/-- The text the source extracts from a script tag before comparing:
`s.string if s.string is not None else s.get_text()`. -/
def scriptTxt (s : Node) : String :=
  (stringProp s).getD (getText s)

/-- The loop body of `find_exact_script`: keep a script element when it has
no `src` attribute and its extracted text is `script_text_equal` to `code`. -/
def matchPred (code : String) (s : Node) : Bool :=
  !(hasAttr s "src") && script_text_equal (some (scriptTxt s)) (some code)

/-- `find_exact_script(soup, code)` from the source: every `script` element
of the whole document without a `src` attribute whose extracted text is
`script_text_equal` to `code`, in document order. -/
def find_exact_script (d : Doc) (code : String) : List Node :=
  (findAllL "script" d).filter (matchPred code)

/-! ### Rewriting the first element with a given name

`head.insert(0, tag)` / `head.append(tag)` / `soup.html.insert(0, tag)` in
the source mutate the tag object returned by `soup.head` / `soup.html`, i.e.
the first element with that name in document order.  In the pure embedding
this becomes: rewrite the children of the first `p`-named element. -/

mutual

/-- Rewrite the children of the first (document-order) element named `p`
inside one node, returning `none` when the subtree has no such element. -/
def rewN (p : String) (f : List Node → List Node) : Node → Option Node
  | .text _ => none
  | .elem n a c =>
    if n = p then some (Node.elem n a (f c))
    else
      match rewL p f c with
      | some c' => some (Node.elem n a c')
      | none => none

/-- Rewrite the children of the first (document-order) element named `p`
inside a forest, returning `none` when there is no such element. -/
def rewL (p : String) (f : List Node → List Node) : List Node → Option (List Node)
  | [] => none
  | x :: xs =>
    match rewN p f x with
    | some x' => some (x' :: xs)
    | none =>
      match rewL p f xs with
      | some xs' => some (x :: xs')
      | none => none

end

/-- Total wrapper: rewrite the first `p`-element's children, or leave the
document unchanged when no such element exists. -/
def rewriteFirst (p : String) (f : List Node → List Node) (d : Doc) : Doc :=
  (rewL p f d).getD d

/-- bs4 truthiness of the value of `soup.html`: `None` is falsy and a `Tag`
is falsy exactly when it has no contents (`Tag.__len__` is the number of
children).  A `NavigableString` is falsy when empty. -/
def truthy : Node → Bool
  | .elem _ _ c => !c.isEmpty
  | .text s => !(s.data.isEmpty)

/-- `ensure_head_exists(soup)` from the source, as a document transformer:
if `soup.head` is `None`, either insert a fresh head as first child of
`soup.html` (when that is truthy) or prepend a fresh `html` element carrying
a fresh head.  The head the source returns is `soup.head` of the result,
i.e. `findFirst "head"`. -/
def ensure_head_exists (d : Doc) : Doc :=
  match findFirst "head" d with
  | some _ => d
  | none =>
    match findFirst "html" d with
    | some h =>
      if truthy h then
        rewriteFirst "html" (fun cs => Node.elem "head" [] [] :: cs) d
      else
        Node.elem "html" [] [Node.elem "head" [] []] :: d
    | none => Node.elem "html" [] [Node.elem "head" [] []] :: d

/-- The gate script constant `TOP_COOKIE_GATE` from the source. -/
def TOP_COOKIE_GATE : String :=
  "(function () \x7b\n  function hasValidCookie() \x7b\n    const cookies = document.cookie.split(\"; \").map(c => c.trim());\n    const accessCookie = cookies.find(c => c.startsWith(\"access=\"));\n    if (!accessCookie) return false;\n    const parts = accessCookie.split(\"=\");\n    if (parts.length < 2) return false;\n    // cookie format: access=1|<ISO expiry>\n    const val = parts[1];\n    const match = val.match(/\\|(.*)$/);\n    if (!match) return true; // if no expiry encoded, assume permanent\n    const expiry = new Date(match[1]);\n    return expiry > new Date();\n  \x7d\n  if (!hasValidCookie()) \x7b\n    window.location.replace(\"/sorry.html\");\n  \x7d\n\x7d)();"

/-- The scheduler script constant `END_SCHEDULER_BLOCK` from the source. -/
def END_SCHEDULER_BLOCK : String :=
  "function recheckCookie() \x7b\n  function hasValidCookie() \x7b\n    const cookies = document.cookie.split(\"; \").map(c => c.trim());\n    const accessCookie = cookies.find(c => c.startsWith(\"access=\"));\n    if (!accessCookie) return false;\n    const parts = accessCookie.split(\"=\");\n    if (parts.length < 2) return false;\n    const val = parts[1];\n    const match = val.match(/\\|(.*)$/);\n    if (!match) return true;\n    const expiry = new Date(match[1]);\n    return expiry > new Date();\n  \x7d\n  if (!hasValidCookie()) \x7b\n    window.location.replace(\"/sorry.html\");\n  \x7d\n\x7d\nfunction scheduleRecheck() \x7b\n  const next = Math.floor(Math.random() * (25000 - 10000 + 1)) + 10000;\n  setTimeout(() => \x7b\n    recheckCookie();\n    scheduleRecheck();\n  \x7d, next);\n\x7d\nscheduleRecheck();"

/-- `soup.new_tag("script")` followed by `s.string = body`: a fresh inline
script element whose single child is the exact text `body`. -/
def newScript (body : String) : Node :=
  Node.elem "script" [] [Node.text body]

/-- The common shape of `insert_top_cookie_gate`: if a matching script
already exists anywhere in the document, report `false` and leave the
document unchanged; otherwise insert a fresh inline script as the first
child of the head and report `true`. -/
def insertTopScript (body : String) (d : Doc) : Bool × Doc :=
  match find_exact_script d body with
  | _ :: _ => (false, d)
  | [] => (true, rewriteFirst "head" (fun cs => newScript body :: cs) d)

/-- The common shape of `insert_end_scheduler`: same existence check;
when absent, append the fresh script as the last child of the head. -/
def insertEndScript (body : String) (d : Doc) : Bool × Doc :=
  match find_exact_script d body with
  | _ :: _ => (false, d)
  | [] => (true, rewriteFirst "head" (fun cs => cs ++ [newScript body]) d)

/-- `insert_top_cookie_gate(soup, head)` from the source, with `head` the
element `ensure_head_exists` returned (the first head in document order). -/
def insert_top_cookie_gate (d : Doc) : Bool × Doc :=
  insertTopScript TOP_COOKIE_GATE d

/-- `insert_end_scheduler(soup, head)` from the source. -/
def insert_end_scheduler (d : Doc) : Bool × Doc :=
  insertEndScript END_SCHEDULER_BLOCK d

/-- The tree-level portion of `process_file`: locate or synthesize the head,
then attempt the two insertions (their reported flags are ignored by the
source as well). -/
def processDoc (d : Doc) : Doc :=
  (insert_end_scheduler (insert_top_cookie_gate (ensure_head_exists d)).2).2

/-! ### Basic lemmas about traversal and first-element rewriting -/

theorem findAllL_append (nm : String) (l₁ l₂ : List Node) :
    findAllL nm (l₁ ++ l₂) = findAllL nm l₁ ++ findAllL nm l₂ := by
  induction l₁ with
  | nil => simp [findAllL]
  | cons x xs ih => simp [findAllL, ih]

mutual

/-- Everything `find_all(nm)` returns is an element named `nm`. -/
theorem findAllN_shape (nm : String) :
    ∀ n s, s ∈ findAllN nm n → ∃ a c, s = Node.elem nm a c
  | .text _, s => by simp [findAllN]
  | .elem n a c, s => by
    intro hs
    simp only [findAllN, List.mem_append] at hs
    rcases hs with h | h
    · split at h
      · next hn =>
        subst hn
        simp only [List.mem_singleton] at h
        exact ⟨a, c, h⟩
      · simp at h
    · exact findAllL_shape nm c s h

/-- Everything `find_all(nm)` returns over a forest is an element named `nm`. -/
theorem findAllL_shape (nm : String) :
    ∀ l s, s ∈ findAllL nm l → ∃ a c, s = Node.elem nm a c
  | [], s => by simp [findAllL]
  | x :: xs, s => by
    intro hs
    simp only [findAllL, List.mem_append] at hs
    rcases hs with h | h
    · exact findAllN_shape nm x s h
    · exact findAllL_shape nm xs s h

end

mutual

/-- Rewriting fails on a subtree that has no element named `p`. -/
theorem rewN_none_of_nil (p : String) (f : List Node → List Node) :
    ∀ n, findAllN p n = [] → rewN p f n = none
  | .text _, _ => by simp [rewN]
  | .elem n a c, h => by
    simp only [findAllN] at h
    have hn : ¬n = p := by
      intro hn
      subst hn
      simp at h
    have hc : findAllL p c = [] := by
      simpa [hn] using h
    simp [rewN, hn, rewL_none_of_nil p f c hc]

/-- Rewriting fails on a forest that has no element named `p`. -/
theorem rewL_none_of_nil (p : String) (f : List Node → List Node) :
    ∀ l, findAllL p l = [] → rewL p f l = none
  | [], _ => by simp [rewL]
  | x :: xs, h => by
    simp only [findAllL, List.append_eq_nil] at h
    simp [rewL, rewN_none_of_nil p f x h.1, rewL_none_of_nil p f xs h.2]

end

mutual

/-- Rewriting succeeds on a subtree whose first `p`-element is
`elem p a c`, and the first `p`-element of the result is the same element
with children `f c`. -/
theorem rewN_first (p : String) (f : List Node → List Node) :
    ∀ n a c, (findAllN p n).head? = some (Node.elem p a c) →
      ∃ n', rewN p f n = some n' ∧
        (findAllN p n').head? = some (Node.elem p a (f c))
  | .text _, a, c => by simp [findAllN]
  | .elem n₁ a₁ c₁, a, c => by
    intro hfirst
    by_cases hn : n₁ = p
    · subst hn
      simp [findAllN, Node.elem.injEq] at hfirst
      obtain ⟨ha, hc⟩ := hfirst
      subst ha; subst hc
      refine ⟨Node.elem n₁ a₁ (f c₁), by simp [rewN], ?_⟩
      simp [findAllN]
    · simp only [findAllN, if_neg hn, List.nil_append] at hfirst
      obtain ⟨c₁', hrew, hhead⟩ := rewL_first p f c₁ a c hfirst
      refine ⟨Node.elem n₁ a₁ c₁', ?_, ?_⟩
      · simp [rewN, hn, hrew]
      · simpa [findAllN, hn] using hhead

/-- Rewriting succeeds on a forest whose first `p`-element is `elem p a c`,
and the first `p`-element of the result is that element with children `f c`. -/
theorem rewL_first (p : String) (f : List Node → List Node) :
    ∀ l a c, (findAllL p l).head? = some (Node.elem p a c) →
      ∃ l', rewL p f l = some l' ∧
        (findAllL p l').head? = some (Node.elem p a (f c))
  | [], a, c => by simp [findAllL]
  | x :: xs, a, c => by
    intro hfirst
    simp only [findAllL] at hfirst
    cases hx : findAllN p x with
    | nil =>
      rw [hx, List.nil_append] at hfirst
      obtain ⟨xs', hrew, hhead⟩ := rewL_first p f xs a c hfirst
      refine ⟨x :: xs', ?_, ?_⟩
      · simp [rewL, rewN_none_of_nil p f x hx, hrew]
      · simpa [findAllL, hx] using hhead
    | cons y ys =>
      rw [hx] at hfirst
      simp only [List.cons_append, List.head?_cons] at hfirst
      have hx' : (findAllN p x).head? = some (Node.elem p a c) := by
        simp [hx, hfirst]
      obtain ⟨x', hrew, hhead⟩ := rewN_first p f x a c hx'
      refine ⟨x' :: xs, ?_, ?_⟩
      · simp [rewL, hrew]
      · cases hy : findAllN p x' with
        | nil => simp [hy] at hhead
        | cons z zs =>
          simp only [hy, List.head?_cons] at hhead
          simp [findAllL, hy, hhead]

end

/-! ### Serialization events

A pre-order event trace of a document: each element contributes an opening
and a closing event around its children's trace, each text node a character
event.  Two documents with the same trace have the same nodes with the same
text in the same relative order, so the trace is the right currency for
frame properties. -/

/-- One step of the pre-order trace. -/
inductive Ev where
  | tagOpen (name : String) (attrs : List (String × String))
  | tagClose (name : String)
  | chars (s : String)
deriving Repr, DecidableEq

mutual

/-- Pre-order event trace of one node. -/
def eventsN : Node → List Ev
  | .text s => [Ev.chars s]
  | .elem n a c => Ev.tagOpen n a :: (eventsL c ++ [Ev.tagClose n])

/-- Pre-order event trace of a forest. -/
def eventsL : List Node → List Ev
  | [] => []
  | x :: xs => eventsN x ++ eventsL xs

end

theorem eventsL_append (l₁ l₂ : List Node) :
    eventsL (l₁ ++ l₂) = eventsL l₁ ++ eventsL l₂ := by
  induction l₁ with
  | nil => simp [eventsL]
  | cons x xs ih => simp [eventsL, ih]

mutual

/-- Rewriting the first `p`-element splices the trace: when `f` wraps a
children trace with fixed blocks `u` and `v`, the result's trace is the
original trace with `u` and `v` spliced in around some middle segment. -/
theorem rewN_events (p : String) (f : List Node → List Node) (u v : List Ev)
    (Hf : ∀ c, eventsL (f c) = u ++ eventsL c ++ v) :
    ∀ n n', rewN p f n = some n' →
      ∃ A m B, eventsN n = A ++ m ++ B ∧ eventsN n' = A ++ u ++ m ++ v ++ B
  | .text _, n' => by simp [rewN]
  | .elem n₁ a₁ c₁, n' => by
    intro hrew
    by_cases hn : n₁ = p
    · simp only [rewN, if_pos hn, Option.some.injEq] at hrew
      subst hrew
      refine ⟨[Ev.tagOpen n₁ a₁], eventsL c₁, [Ev.tagClose n₁], ?_, ?_⟩
      · simp [eventsN]
      · simp [eventsN, Hf c₁, List.append_assoc]
    · simp only [rewN, if_neg hn] at hrew
      cases hc : rewL p f c₁ with
      | none => simp [hc] at hrew
      | some c' =>
        simp only [hc, Option.some.injEq] at hrew
        subst hrew
        obtain ⟨A, m, B, h1, h2⟩ := rewL_events p f u v Hf c₁ c' hc
        refine ⟨Ev.tagOpen n₁ a₁ :: A, m, B ++ [Ev.tagClose n₁], ?_, ?_⟩
        · simp [eventsN, h1, List.append_assoc]
        · simp [eventsN, h2, List.append_assoc]

/-- Forest version of `rewN_events`. -/
theorem rewL_events (p : String) (f : List Node → List Node) (u v : List Ev)
    (Hf : ∀ c, eventsL (f c) = u ++ eventsL c ++ v) :
    ∀ l l', rewL p f l = some l' →
      ∃ A m B, eventsL l = A ++ m ++ B ∧ eventsL l' = A ++ u ++ m ++ v ++ B
  | [], l' => by simp [rewL]
  | x :: xs, l' => by
    intro hrew
    simp only [rewL] at hrew
    cases hN : rewN p f x with
    | some x' =>
      simp only [hN, Option.some.injEq] at hrew
      subst hrew
      obtain ⟨A, m, B, h1, h2⟩ := rewN_events p f u v Hf x x' hN
      refine ⟨A, m, B ++ eventsL xs, ?_, ?_⟩
      · simp [eventsL, h1, List.append_assoc]
      · simp [eventsL, h2, List.append_assoc]
    | none =>
      simp only [hN] at hrew
      cases hL : rewL p f xs with
      | none => simp [hL] at hrew
      | some xs' =>
        simp only [hL, Option.some.injEq] at hrew
        subst hrew
        obtain ⟨A, m, B, h1, h2⟩ := rewL_events p f u v Hf xs xs' hL
        refine ⟨eventsN x ++ A, m, B, ?_, ?_⟩
        · simp [eventsL, h1, List.append_assoc]
        · simp [eventsL, h2, List.append_assoc]

end

/-! ### Script elements have only text children

Every document `html.parser` produces satisfies this (script content is
CDATA to the parser), and every operation of the program preserves it.  It
rules out the degenerate trees in which a script element contains the head
element being rewritten. -/

/-- Is this node a `NavigableString`? -/
def isTextNode : Node → Bool
  | .text _ => true
  | .elem .. => false

mutual

/-- Every `script` element in the subtree has only text children. -/
def scriptsTextOnlyN : Node → Bool
  | .text _ => true
  | .elem n _ c => (if n = "script" then c.all isTextNode else true) && scriptsTextOnlyL c

/-- Every `script` element in the forest has only text children. -/
def scriptsTextOnlyL : List Node → Bool
  | [] => true
  | x :: xs => scriptsTextOnlyN x && scriptsTextOnlyL xs

end

/-- A forest of text nodes contains nothing to rewrite. -/
theorem rewL_none_of_allText (p : String) (f : List Node → List Node) :
    ∀ l, l.all isTextNode = true → rewL p f l = none
  | [], _ => by simp [rewL]
  | x :: xs, h => by
    simp only [List.all_cons, Bool.and_eq_true] at h
    cases x with
    | text s => simp [rewL, rewN, rewL_none_of_allText p f xs h.2]
    | elem n a c => simp [isTextNode] at h

mutual

/-- Rewriting the first `p`-element (`p` not `"script"`) splices the list of
script elements, provided scripts have only text children: when `f` adds the
fixed script lists `u` and `v` around a children list, the document's script
list gains exactly `u` and `v` around some middle segment, every other
script element surviving unchanged. -/
theorem rewN_scripts (p : String) (f : List Node → List Node)
    (u v : List Node) (hp : ¬p = "script")
    (Hf : ∀ c, findAllL "script" (f c) = u ++ findAllL "script" c ++ v) :
    ∀ n n', scriptsTextOnlyN n = true → rewN p f n = some n' →
      ∃ A m B, findAllN "script" n = A ++ m ++ B ∧
        findAllN "script" n' = A ++ u ++ m ++ v ++ B
  | .text _, n' => by simp [rewN]
  | .elem n₁ a₁ c₁, n' => by
    intro hsto hrew
    simp only [scriptsTextOnlyN, Bool.and_eq_true] at hsto
    by_cases hn : n₁ = p
    · have hns : ¬n₁ = "script" := by rw [hn]; exact hp
      simp only [rewN, if_pos hn, Option.some.injEq] at hrew
      subst hrew
      refine ⟨[], findAllL "script" c₁, [], ?_, ?_⟩
      · simp [findAllN, hns]
      · simp [findAllN, hns, Hf c₁, List.append_assoc]
    · simp only [rewN, if_neg hn] at hrew
      cases hc : rewL p f c₁ with
      | none => simp [hc] at hrew
      | some c' =>
        simp only [hc, Option.some.injEq] at hrew
        subst hrew
        by_cases hns : n₁ = "script"
        · exfalso
          have hall : c₁.all isTextNode = true := by
            have := hsto.1
            simpa [hns] using this
          rw [rewL_none_of_allText p f c₁ hall] at hc
          exact Option.noConfusion hc
        · obtain ⟨A, m, B, h1, h2⟩ := rewL_scripts p f u v hp Hf c₁ c' hsto.2 hc
          refine ⟨A, m, B, ?_, ?_⟩
          · simp [findAllN, hns, h1]
          · simp [findAllN, hns, h2]

/-- Forest version of `rewN_scripts`. -/
theorem rewL_scripts (p : String) (f : List Node → List Node)
    (u v : List Node) (hp : ¬p = "script")
    (Hf : ∀ c, findAllL "script" (f c) = u ++ findAllL "script" c ++ v) :
    ∀ l l', scriptsTextOnlyL l = true → rewL p f l = some l' →
      ∃ A m B, findAllL "script" l = A ++ m ++ B ∧
        findAllL "script" l' = A ++ u ++ m ++ v ++ B
  | [], l' => by simp [rewL]
  | x :: xs, l' => by
    intro hsto hrew
    simp only [scriptsTextOnlyL, Bool.and_eq_true] at hsto
    simp only [rewL] at hrew
    cases hN : rewN p f x with
    | some x' =>
      simp only [hN, Option.some.injEq] at hrew
      subst hrew
      obtain ⟨A, m, B, h1, h2⟩ := rewN_scripts p f u v hp Hf x x' hsto.1 hN
      refine ⟨A, m, B ++ findAllL "script" xs, ?_, ?_⟩
      · simp [findAllL, h1, List.append_assoc]
      · simp [findAllL, h2, List.append_assoc]
    | none =>
      simp only [hN] at hrew
      cases hL : rewL p f xs with
      | none => simp [hL] at hrew
      | some xs' =>
        simp only [hL, Option.some.injEq] at hrew
        subst hrew
        obtain ⟨A, m, B, h1, h2⟩ := rewL_scripts p f u v hp Hf xs xs' hsto.2 hL
        refine ⟨findAllN "script" x ++ A, m, B, ?_, ?_⟩
        · simp [findAllL, h1, List.append_assoc]
        · simp [findAllL, h2, List.append_assoc]

end

mutual

/-- Rewriting the first `p`-element (`p` not `"script"`) preserves the
scripts-have-only-text-children invariant whenever `f` does. -/
theorem rewN_sto (p : String) (f : List Node → List Node) (hp : ¬p = "script")
    (Hf : ∀ c, scriptsTextOnlyL c = true → scriptsTextOnlyL (f c) = true) :
    ∀ n n', scriptsTextOnlyN n = true → rewN p f n = some n' →
      scriptsTextOnlyN n' = true
  | .text _, n' => by simp [rewN]
  | .elem n₁ a₁ c₁, n' => by
    intro hsto hrew
    simp only [scriptsTextOnlyN, Bool.and_eq_true] at hsto
    by_cases hn : n₁ = p
    · have hns : ¬n₁ = "script" := by rw [hn]; exact hp
      simp only [rewN, if_pos hn, Option.some.injEq] at hrew
      subst hrew
      simp [scriptsTextOnlyN, hns, Hf c₁ hsto.2]
    · simp only [rewN, if_neg hn] at hrew
      cases hc : rewL p f c₁ with
      | none => simp [hc] at hrew
      | some c' =>
        simp only [hc, Option.some.injEq] at hrew
        subst hrew
        by_cases hns : n₁ = "script"
        · exfalso
          have hall : c₁.all isTextNode = true := by
            have := hsto.1
            simpa [hns] using this
          rw [rewL_none_of_allText p f c₁ hall] at hc
          exact Option.noConfusion hc
        · have := rewL_sto p f hp Hf c₁ c' hsto.2 hc
          simp [scriptsTextOnlyN, hns, this]

/-- Forest version of `rewN_sto`. -/
theorem rewL_sto (p : String) (f : List Node → List Node) (hp : ¬p = "script")
    (Hf : ∀ c, scriptsTextOnlyL c = true → scriptsTextOnlyL (f c) = true) :
    ∀ l l', scriptsTextOnlyL l = true → rewL p f l = some l' →
      scriptsTextOnlyL l' = true
  | [], l' => by simp [rewL]
  | x :: xs, l' => by
    intro hsto hrew
    simp only [scriptsTextOnlyL, Bool.and_eq_true] at hsto
    simp only [rewL] at hrew
    cases hN : rewN p f x with
    | some x' =>
      simp only [hN, Option.some.injEq] at hrew
      subst hrew
      simp [scriptsTextOnlyL, rewN_sto p f hp Hf x x' hsto.1 hN, hsto.2]
    | none =>
      simp only [hN] at hrew
      cases hL : rewL p f xs with
      | none => simp [hL] at hrew
      | some xs' =>
        simp only [hL, Option.some.injEq] at hrew
        subst hrew
        simp [scriptsTextOnlyL, hsto.1, rewL_sto p f hp Hf xs xs' hsto.2 hL]

end

mutual

/-- When the tree contains no `nm`-element at all (`nm ≠ p`), rewriting the
first `p`-element with an `f` that contributes a fixed list `xs` of
`nm`-elements yields exactly `xs` as the new `nm`-element list. -/
theorem rewN_findAll_of_nil (p : String) (f : List Node → List Node)
    (nm : String) (xs : List Node) (hnmp : ¬nm = p)
    (Hf : ∀ c, findAllL nm c = [] → findAllL nm (f c) = xs) :
    ∀ n n', findAllN nm n = [] → rewN p f n = some n' → findAllN nm n' = xs
  | .text _, n' => by simp [rewN]
  | .elem n₁ a₁ c₁, n' => by
    intro hnil hrew
    have hn₁ : ¬n₁ = nm := by
      intro h
      subst h
      simp [findAllN] at hnil
    have hc₁ : findAllL nm c₁ = [] := by
      simpa [findAllN, hn₁] using hnil
    by_cases hn : n₁ = p
    · simp only [rewN, if_pos hn, Option.some.injEq] at hrew
      subst hrew
      simp [findAllN, hn₁, Hf c₁ hc₁]
    · simp only [rewN, if_neg hn] at hrew
      cases hc : rewL p f c₁ with
      | none => simp [hc] at hrew
      | some c' =>
        simp only [hc, Option.some.injEq] at hrew
        subst hrew
        have := rewL_findAll_of_nil p f nm xs hnmp Hf c₁ c' hc₁ hc
        simp [findAllN, hn₁, this]

/-- Forest version of `rewN_findAll_of_nil`. -/
theorem rewL_findAll_of_nil (p : String) (f : List Node → List Node)
    (nm : String) (xs : List Node) (hnmp : ¬nm = p)
    (Hf : ∀ c, findAllL nm c = [] → findAllL nm (f c) = xs) :
    ∀ l l', findAllL nm l = [] → rewL p f l = some l' → findAllL nm l' = xs
  | [], l' => by simp [rewL]
  | x :: xs', l' => by
    intro hnil hrew
    simp only [findAllL, List.append_eq_nil] at hnil
    simp only [rewL] at hrew
    cases hN : rewN p f x with
    | some x' =>
      simp only [hN, Option.some.injEq] at hrew
      subst hrew
      have := rewN_findAll_of_nil p f nm xs hnmp Hf x x' hnil.1 hN
      simp [findAllL, this, hnil.2]
    | none =>
      simp only [hN] at hrew
      cases hL : rewL p f xs' with
      | none => simp [hL] at hrew
      | some xs'' =>
        simp only [hL, Option.some.injEq] at hrew
        subst hrew
        have := rewL_findAll_of_nil p f nm xs hnmp Hf xs' xs'' hnil.2 hL
        simp [findAllL, this, hnil.1]

end

/-! ### Stage-level lemmas -/

theorem mem_find_exact_script {s : Node} {d : Doc} {code : String} :
    s ∈ find_exact_script d code ↔
      s ∈ findAllL "script" d ∧ matchPred code s = true := by
  simp [find_exact_script, List.mem_filter]

/-- A freshly created inline script with text `body` matches `body`. -/
theorem matchPred_newScript (body : String) :
    matchPred body (newScript body) = true := by
  simp [matchPred, newScript, hasAttr, scriptTxt, stringProp, script_text_equal]

theorem insertTopScript_of_found {body : String} {d : Doc}
    (h : find_exact_script d body ≠ []) : insertTopScript body d = (false, d) := by
  cases hfe : find_exact_script d body with
  | nil => exact absurd hfe h
  | cons m ms => simp [insertTopScript, hfe]

theorem insertTopScript_of_not_found {body : String} {d : Doc}
    (h : find_exact_script d body = []) :
    insertTopScript body d =
      (true, rewriteFirst "head" (fun cs => newScript body :: cs) d) := by
  simp [insertTopScript, h]

theorem insertEndScript_of_found {body : String} {d : Doc}
    (h : find_exact_script d body ≠ []) : insertEndScript body d = (false, d) := by
  cases hfe : find_exact_script d body with
  | nil => exact absurd hfe h
  | cons m ms => simp [insertEndScript, hfe]

theorem insertEndScript_of_not_found {body : String} {d : Doc}
    (h : find_exact_script d body = []) :
    insertEndScript body d =
      (true, rewriteFirst "head" (fun cs => cs ++ [newScript body]) d) := by
  simp [insertEndScript, h]

/-- `ensure_head_exists` is the identity as soon as a head exists. -/
theorem ensure_of_head {d : Doc} (h : findAllL "head" d ≠ []) :
    ensure_head_exists d = d := by
  cases hl : findAllL "head" d with
  | nil => exact absurd hl h
  | cons x xs => simp [ensure_head_exists, findFirst, hl]

/-- When no head exists, `ensure_head_exists` creates exactly one empty
head, which becomes the document's unique head element. -/
theorem ensure_no_head {d : Doc} (hno : findAllL "head" d = []) :
    findAllL "head" (ensure_head_exists d) = [Node.elem "head" [] []] := by
  have hfHead : findFirst "head" d = none := by simp [findFirst, hno]
  have Hf : ∀ c, findAllL "head" c = [] →
      findAllL "head" (Node.elem "head" [] [] :: c) = [Node.elem "head" [] []] := by
    intro c hc
    simp [findAllL, findAllN, hc]
  cases hfHtml : findFirst "html" d with
  | none =>
    simp [ensure_head_exists, hfHead, hfHtml, findAllL, findAllN, hno]
  | some h =>
    cases hl : findAllL "html" d with
    | nil => simp [findFirst, hl] at hfHtml
    | cons y ys =>
      have hy : h = y := by
        simp [findFirst, hl] at hfHtml
        exact hfHtml.symm
      subst hy
      obtain ⟨a, c, hshape⟩ := findAllL_shape "html" d h (by simp [hl])
      by_cases ht : truthy h = true
      · obtain ⟨l', hrew, -⟩ :=
          rewL_first "html" (fun cs => Node.elem "head" [] [] :: cs) d a c
            (by simp [hl, hshape])
        have hres : ensure_head_exists d =
            rewriteFirst "html" (fun cs => Node.elem "head" [] [] :: cs) d := by
          simp [ensure_head_exists, hfHead, hfHtml, ht]
        rw [hres, rewriteFirst, hrew, Option.getD_some]
        exact rewL_findAll_of_nil "html" _ "head" _ (by decide) Hf d l' hno hrew
      · have hres : ensure_head_exists d =
            Node.elem "html" [] [Node.elem "head" [] []] :: d := by
          simp [ensure_head_exists, hfHead, hfHtml, ht]
        rw [hres]
        simp [findAllL, findAllN, hno]

/-- After `ensure_head_exists` the document always has a head element. -/
theorem ensure_has_head (d : Doc) :
    findAllL "head" (ensure_head_exists d) ≠ [] := by
  cases hl : findAllL "head" d with
  | cons x xs => rw [ensure_of_head (by simp [hl]), hl]; simp
  | nil => rw [ensure_no_head hl]; simp

/-- `ensure_head_exists` preserves the scripts-text-only invariant. -/
theorem ensure_sto {d : Doc} (hsto : scriptsTextOnlyL d = true) :
    scriptsTextOnlyL (ensure_head_exists d) = true := by
  have hwrap : scriptsTextOnlyN (Node.elem "html" [] [Node.elem "head" [] []]) = true := by
    decide
  have Hf : ∀ c, scriptsTextOnlyL c = true →
      scriptsTextOnlyL (Node.elem "head" [] [] :: c) = true := by
    intro c hc
    simp [scriptsTextOnlyL, scriptsTextOnlyN, hc]
  cases hfHead : findFirst "head" d with
  | some h => simpa [ensure_head_exists, hfHead] using hsto
  | none =>
    cases hfHtml : findFirst "html" d with
    | none => simp [ensure_head_exists, hfHead, hfHtml, scriptsTextOnlyL, hwrap, hsto]
    | some h =>
      by_cases ht : truthy h = true
      · have hres : ensure_head_exists d =
            rewriteFirst "html" (fun cs => Node.elem "head" [] [] :: cs) d := by
          simp [ensure_head_exists, hfHead, hfHtml, ht]
        rw [hres, rewriteFirst]
        cases hrew : rewL "html" (fun cs => Node.elem "head" [] [] :: cs) d with
        | none => simpa using hsto
        | some l' =>
          simpa using rewL_sto "html" _ (by decide) Hf d l' hsto hrew
      · have hres : ensure_head_exists d =
            Node.elem "html" [] [Node.elem "head" [] []] :: d := by
          simp [ensure_head_exists, hfHead, hfHtml, ht]
        rw [hres]
        simp [scriptsTextOnlyL, hwrap, hsto]

/-- `ensure_head_exists` neither adds nor removes script elements
(scripts-text-only documents). -/
theorem ensure_scripts {d : Doc} (hsto : scriptsTextOnlyL d = true) :
    findAllL "script" (ensure_head_exists d) = findAllL "script" d := by
  have Hf : ∀ c, findAllL "script" (Node.elem "head" [] [] :: c) =
      [] ++ findAllL "script" c ++ [] := by
    intro c
    simp [findAllL, findAllN]
  cases hfHead : findFirst "head" d with
  | some h => simp [ensure_head_exists, hfHead]
  | none =>
    cases hfHtml : findFirst "html" d with
    | none => simp [ensure_head_exists, hfHead, hfHtml, findAllL, findAllN]
    | some h =>
      by_cases ht : truthy h = true
      · have hres : ensure_head_exists d =
            rewriteFirst "html" (fun cs => Node.elem "head" [] [] :: cs) d := by
          simp [ensure_head_exists, hfHead, hfHtml, ht]
        rw [hres, rewriteFirst]
        cases hrew : rewL "html" (fun cs => Node.elem "head" [] [] :: cs) d with
        | none => simp
        | some l' =>
          obtain ⟨A, m, B, h1, h2⟩ :=
            rewL_scripts "html" _ [] [] (by decide) Hf d l' hsto hrew
          simp only [Option.getD_some, h1, h2]
          simp
      · have hres : ensure_head_exists d =
            Node.elem "html" [] [Node.elem "head" [] []] :: d := by
          simp [ensure_head_exists, hfHead, hfHtml, ht]
        rw [hres]
        simp [findAllL, findAllN]

/-- Core facts about rewriting the children of the first head with a
function that splices in the fixed script lists `u` (in front) and `v`
(behind): the invariant is kept, a head remains, old scripts survive and
the spliced scripts appear. -/
theorem rewriteHead_core (f : List Node → List Node) (u v : List Node) (d : Doc)
    (hsto : scriptsTextOnlyL d = true) (hh : findAllL "head" d ≠ [])
    (Hfs : ∀ c, findAllL "script" (f c) = u ++ findAllL "script" c ++ v)
    (Hfsto : ∀ c, scriptsTextOnlyL c = true → scriptsTextOnlyL (f c) = true) :
    scriptsTextOnlyL (rewriteFirst "head" f d) = true ∧
    findAllL "head" (rewriteFirst "head" f d) ≠ [] ∧
    (∀ s, s ∈ findAllL "script" d → s ∈ findAllL "script" (rewriteFirst "head" f d)) ∧
    (∀ s, s ∈ u ∨ s ∈ v → s ∈ findAllL "script" (rewriteFirst "head" f d)) := by
  cases hl : findAllL "head" d with
  | nil => exact absurd hl hh
  | cons h t =>
    obtain ⟨a, c, hshape⟩ := findAllL_shape "head" d h (by simp [hl])
    obtain ⟨l', hrew, hhead⟩ :=
      rewL_first "head" f d a c (by simp [hl, hshape])
    have hres : rewriteFirst "head" f d = l' := by
      simp [rewriteFirst, hrew]
    obtain ⟨A, m, B, h1, h2⟩ :=
      rewL_scripts "head" f u v (by decide) Hfs d l' hsto hrew
    refine ⟨?_, ?_, ?_, ?_⟩
    · rw [hres]
      exact rewL_sto "head" f (by decide) Hfsto d l' hsto hrew
    · rw [hres]
      intro hnil
      rw [hnil] at hhead
      simp at hhead
    · intro s hs
      rw [hres, h2]
      rw [h1] at hs
      simp only [List.mem_append] at hs ⊢
      tauto
    · intro s hs
      rw [hres, h2]
      simp only [List.mem_append]
      tauto

/-- Core facts about one `insert_top`-style stage: the invariant is kept,
a head remains, old scripts survive, and afterwards a script matching
`body` is certainly present. -/
theorem insertTop_core (body : String) (d : Doc)
    (hsto : scriptsTextOnlyL d = true) (hh : findAllL "head" d ≠ []) :
    scriptsTextOnlyL (insertTopScript body d).2 = true ∧
    findAllL "head" (insertTopScript body d).2 ≠ [] ∧
    (∀ s, s ∈ findAllL "script" d →
      s ∈ findAllL "script" (insertTopScript body d).2) ∧
    find_exact_script (insertTopScript body d).2 body ≠ [] := by
  cases hfe : find_exact_script d body with
  | cons m ms =>
    rw [insertTopScript_of_found (by simp [hfe])]
    exact ⟨hsto, hh, fun s hs => hs, by simp [hfe]⟩
  | nil =>
    rw [insertTopScript_of_not_found hfe]
    obtain ⟨h1, h2, h3, h4⟩ :=
      rewriteHead_core (fun cs => newScript body :: cs) [newScript body] [] d
        hsto hh
        (by intro c; simp [findAllL, findAllN, newScript])
        (by
          intro c hc
          simp [scriptsTextOnlyL, scriptsTextOnlyN, newScript, isTextNode, hc])
    refine ⟨h1, h2, h3, ?_⟩
    have hmem : newScript body ∈
        findAllL "script" (rewriteFirst "head" (fun cs => newScript body :: cs) d) :=
      h4 _ (Or.inl (by simp))
    exact List.ne_nil_of_mem
      (mem_find_exact_script.mpr ⟨hmem, matchPred_newScript body⟩)

/-- Core facts about one `insert_bottom`-style stage. -/
theorem insertEnd_core (body : String) (d : Doc)
    (hsto : scriptsTextOnlyL d = true) (hh : findAllL "head" d ≠ []) :
    scriptsTextOnlyL (insertEndScript body d).2 = true ∧
    findAllL "head" (insertEndScript body d).2 ≠ [] ∧
    (∀ s, s ∈ findAllL "script" d →
      s ∈ findAllL "script" (insertEndScript body d).2) ∧
    find_exact_script (insertEndScript body d).2 body ≠ [] := by
  cases hfe : find_exact_script d body with
  | cons m ms =>
    rw [insertEndScript_of_found (by simp [hfe])]
    exact ⟨hsto, hh, fun s hs => hs, by simp [hfe]⟩
  | nil =>
    rw [insertEndScript_of_not_found hfe]
    obtain ⟨h1, h2, h3, h4⟩ :=
      rewriteHead_core (fun cs => cs ++ [newScript body]) [] [newScript body] d
        hsto hh
        (by intro c; simp [findAllL_append, findAllL, findAllN, newScript])
        (by
          intro c hc
          induction c with
          | nil => simp [scriptsTextOnlyL, scriptsTextOnlyN, newScript, isTextNode]
          | cons x xs ih =>
            simp only [scriptsTextOnlyL, Bool.and_eq_true] at hc
            simp only [List.cons_append, scriptsTextOnlyL, Bool.and_eq_true]
            exact ⟨hc.1, ih hc.2⟩)
    refine ⟨h1, h2, h3, ?_⟩
    have hmem : newScript body ∈
        findAllL "script" (rewriteFirst "head" (fun cs => cs ++ [newScript body]) d) :=
      h4 _ (Or.inr (by simp))
    exact List.ne_nil_of_mem
      (mem_find_exact_script.mpr ⟨hmem, matchPred_newScript body⟩)

theorem processDoc_eq (d : Doc) :
    processDoc d =
      (insertEndScript END_SCHEDULER_BLOCK
        (insertTopScript TOP_COOKIE_GATE (ensure_head_exists d)).2).2 := rfl

/-- The master invariant: on a scripts-text-only document, processing keeps
the invariant, guarantees a head, and guarantees a match for each of the two
canonical blocks somewhere in the document. -/
theorem processDoc_core (d : Doc) (hsto : scriptsTextOnlyL d = true) :
    scriptsTextOnlyL (processDoc d) = true ∧
    findAllL "head" (processDoc d) ≠ [] ∧
    find_exact_script (processDoc d) TOP_COOKIE_GATE ≠ [] ∧
    find_exact_script (processDoc d) END_SCHEDULER_BLOCK ≠ [] := by
  obtain ⟨t1, t2, t3, t4⟩ :=
    insertTop_core TOP_COOKIE_GATE (ensure_head_exists d)
      (ensure_sto hsto) (ensure_has_head d)
  obtain ⟨u1, u2, u3, u4⟩ :=
    insertEnd_core END_SCHEDULER_BLOCK
      (insertTopScript TOP_COOKIE_GATE (ensure_head_exists d)).2 t1 t2
  rw [processDoc_eq]
  refine ⟨u1, u2, ?_, u4⟩
  obtain ⟨s, hs⟩ := List.exists_mem_of_ne_nil _ t4
  obtain ⟨hsmem, hspred⟩ := mem_find_exact_script.mp hs
  exact List.ne_nil_of_mem (mem_find_exact_script.mpr ⟨u3 s hsmem, hspred⟩)

/-- A document that already has a head and matches for both blocks is a
fixed point: both insertions report `false` and nothing changes. -/
theorem processDoc_of_saturated {d : Doc} (hh : findAllL "head" d ≠ [])
    (hg : find_exact_script d TOP_COOKIE_GATE ≠ [])
    (hs : find_exact_script d END_SCHEDULER_BLOCK ≠ []) :
    processDoc d = d ∧
    (insert_top_cookie_gate (ensure_head_exists d)).1 = false ∧
    (insert_end_scheduler (insert_top_cookie_gate (ensure_head_exists d)).2).1 = false := by
  have he : ensure_head_exists d = d := ensure_of_head hh
  have ht : insert_top_cookie_gate d = (false, d) := insertTopScript_of_found hg
  have hd : insert_end_scheduler d = (false, d) := insertEndScript_of_found hs
  refine ⟨?_, ?_, ?_⟩
  · simp [processDoc, he, ht, hd]
  · simp [he, ht]
  · simp [he, ht, hd]

/-- The gate block does not match the scheduler block (their normalized
texts differ). -/
theorem matchPred_gate_sched :
    matchPred END_SCHEDULER_BLOCK (newScript TOP_COOKIE_GATE) = false := by
  decide

/-! ### Claim C1 -/

/-- C1 counterexample: a parseable document whose body already carries a
copy of the gate script.  `find_exact_script` scans the whole document, so
`insert_top_cookie_gate` declines to insert, and after `process_file` the
head element contains no script matching `TOP_COOKIE_GATE` — the claim's
"the head element contains at least one … GATE_SCRIPT" fails. -/
theorem C1_counterexample :
    findFirst "head" (processDoc
        [Node.elem "html" [] [Node.elem "head" [] [],
          Node.elem "body" [] [newScript TOP_COOKIE_GATE]]]) =
      some (Node.elem "head" [] [newScript END_SCHEDULER_BLOCK]) ∧
    find_exact_script [Node.elem "head" [] [newScript END_SCHEDULER_BLOCK]]
        TOP_COOKIE_GATE = [] := by
  decide

/-- C1 (amended): after `process_file`, the DOCUMENT contains at least one
inline script whose normalized text equals `TOP_COOKIE_GATE` and at least
one whose normalized text equals `END_SCHEDULER_BLOCK`; the matches sit in
the head whenever no matching script pre-existed elsewhere.  Stated for
documents whose script elements contain only text, as the lenient parser
produces. -/
theorem C1_theorem (d : Doc) (hsto : scriptsTextOnlyL d = true) :
    find_exact_script (processDoc d) TOP_COOKIE_GATE ≠ [] ∧
    find_exact_script (processDoc d) END_SCHEDULER_BLOCK ≠ [] :=
  ⟨(processDoc_core d hsto).2.2.1, (processDoc_core d hsto).2.2.2⟩

/-- C1 witness: the amended claim evaluated on the empty document. -/
theorem C1_witness :
    scriptsTextOnlyL ([] : Doc) = true ∧
    (find_exact_script (processDoc []) TOP_COOKIE_GATE ≠ [] ∧
     find_exact_script (processDoc []) END_SCHEDULER_BLOCK ≠ []) :=
  ⟨by decide, C1_theorem [] (by decide)⟩

/-! ### Claim C2 -/

/-- C2 counterexample: an input whose head already contains two copies of
the gate script.  Processing twice leaves both copies (no insertion ever
happens for the gate), so the head ends with two gate scripts, not exactly
one. -/
theorem C2_counterexample :
    ((findFirst "head" (processDoc (processDoc
        [Node.elem "html" [] [Node.elem "head" []
          [newScript TOP_COOKIE_GATE, newScript TOP_COOKIE_GATE]]]))).map
      (fun h => (find_exact_script [h] TOP_COOKIE_GATE).length)) = some 2 := by
  decide

/-- C2 (amended): processing is idempotent — the second run changes nothing
and both of its insertions report `false` — so no duplicates accumulate;
but the head holds EXACTLY one copy of each block only when the input
contained none (pre-existing copies are kept as they are).  Stated for
documents whose script elements contain only text. -/
theorem C2_theorem (d : Doc) (hsto : scriptsTextOnlyL d = true) :
    processDoc (processDoc d) = processDoc d ∧
    (insert_top_cookie_gate (ensure_head_exists (processDoc d))).1 = false ∧
    (insert_end_scheduler
      (insert_top_cookie_gate (ensure_head_exists (processDoc d))).2).1 = false := by
  obtain ⟨-, hh, hg, hs⟩ := processDoc_core d hsto
  exact processDoc_of_saturated hh hg hs

/-- C2 witness: idempotence evaluated on the empty document. -/
theorem C2_witness :
    scriptsTextOnlyL ([] : Doc) = true ∧
    (processDoc (processDoc []) = processDoc [] ∧
     (insert_top_cookie_gate (ensure_head_exists (processDoc []))).1 = false ∧
     (insert_end_scheduler
       (insert_top_cookie_gate (ensure_head_exists (processDoc []))).2).1 = false) :=
  ⟨by decide, C2_theorem [] (by decide)⟩

/-! ### Claim C3 -/

/-- C3 counterexample: on `<html></html>` — an html root with no head — the
source's `if soup.html:` test sees an EMPTY tag, which is falsy in bs4
(`Tag.__len__` is the number of children), so instead of inserting a head
into the existing root it prepends a second, fresh `html` element. -/
theorem C3_counterexample :
    ensure_head_exists [Node.elem "html" [] []] =
      [Node.elem "html" [] [Node.elem "head" [] []], Node.elem "html" [] []] ∧
    ensure_head_exists [Node.elem "html" [] []] ≠
      [Node.elem "html" [] [Node.elem "head" [] []]] := by
  decide

/-- C3 (amended): `ensure_head_exists` returns the existing head unchanged
when one exists; when none exists and an html root is present AND NONEMPTY
(bs4 truthiness), it inserts a fresh head as the first child of the first
html element; when no html root exists — or the root is empty, hence falsy
— it prepends a fresh `html` element wrapping a fresh head; and a second
call has no side effects beyond the first. -/
theorem C3_theorem (d : Doc) :
    (findFirst "head" d ≠ none → ensure_head_exists d = d) ∧
    (findFirst "head" d = none →
      ∀ h, findFirst "html" d = some h → truthy h = true →
        ensure_head_exists d =
          rewriteFirst "html" (fun cs => Node.elem "head" [] [] :: cs) d) ∧
    (findFirst "head" d = none →
      (∀ h, findFirst "html" d = some h → truthy h = false) →
        ensure_head_exists d =
          Node.elem "html" [] [Node.elem "head" [] []] :: d) ∧
    ensure_head_exists (ensure_head_exists d) = ensure_head_exists d := by
  refine ⟨?_, ?_, ?_, ?_⟩
  · intro hne
    cases hf : findFirst "head" d with
    | none => exact absurd hf hne
    | some h => simp [ensure_head_exists, hf]
  · intro hf h hfh ht
    simp [ensure_head_exists, hf, hfh, ht]
  · intro hf hfalsy
    cases hfh : findFirst "html" d with
    | none => simp [ensure_head_exists, hf, hfh]
    | some h => simp [ensure_head_exists, hf, hfh, hfalsy h hfh]
  · cases hl : findAllL "head" d with
    | cons x xs =>
      have h := @ensure_of_head d (by simp [hl])
      rw [h]
      exact h
    | nil =>
      exact ensure_of_head (by rw [ensure_no_head hl]; simp)

/-- C3 witness: the three cases of the amended contract evaluated on
concrete documents (head present; nonempty html root without head; no html
root), plus idempotence on the second of them. -/
theorem C3_witness :
    (ensure_head_exists [Node.elem "html" [] [Node.elem "head" [] []]] =
      [Node.elem "html" [] [Node.elem "head" [] []]]) ∧
    (ensure_head_exists [Node.elem "html" [] [Node.elem "body" [] []]] =
      rewriteFirst "html" (fun cs => Node.elem "head" [] [] :: cs)
        [Node.elem "html" [] [Node.elem "body" [] []]]) ∧
    (ensure_head_exists [Node.elem "p" [] []] =
      Node.elem "html" [] [Node.elem "head" [] []] :: [Node.elem "p" [] []]) ∧
    ensure_head_exists (ensure_head_exists [Node.elem "html" [] [Node.elem "body" [] []]]) =
      ensure_head_exists [Node.elem "html" [] [Node.elem "body" [] []]] :=
  ⟨(C3_theorem _).1 (by decide),
   (C3_theorem _).2.1 (by decide) (Node.elem "html" [] [Node.elem "body" [] []])
     (by decide) (by decide),
   (C3_theorem _).2.2.1 (by decide) (by decide),
   (C3_theorem _).2.2.2⟩

/-! ### Claim C5 -/

/-- C5: `insert_top` reports `false` and leaves the document unchanged when
a matching script exists anywhere; otherwise it prepends a fresh inline
script with exact text `body` to the head's children and reports `true`;
`insert_bottom` does the same with an append.  `head` is the first head
element, as resolved by `ensure_head_exists`. -/
theorem C5_theorem (d : Doc) (body : String) (a : List (String × String))
    (c : List Node) (hhead : findFirst "head" d = some (Node.elem "head" a c)) :
    (find_exact_script d body ≠ [] →
      insertTopScript body d = (false, d) ∧ insertEndScript body d = (false, d)) ∧
    (find_exact_script d body = [] →
      (insertTopScript body d).1 = true ∧
      findFirst "head" (insertTopScript body d).2 =
        some (Node.elem "head" a (newScript body :: c)) ∧
      (insertEndScript body d).1 = true ∧
      findFirst "head" (insertEndScript body d).2 =
        some (Node.elem "head" a (c ++ [newScript body]))) := by
  constructor
  · intro hf
    exact ⟨insertTopScript_of_found hf, insertEndScript_of_found hf⟩
  · intro hf
    have hfh : (findAllL "head" d).head? = some (Node.elem "head" a c) := hhead
    obtain ⟨l₁, hrew₁, hhd₁⟩ :=
      rewL_first "head" (fun cs => newScript body :: cs) d a c hfh
    obtain ⟨l₂, hrew₂, hhd₂⟩ :=
      rewL_first "head" (fun cs => cs ++ [newScript body]) d a c hfh
    rw [insertTopScript_of_not_found hf, insertEndScript_of_not_found hf]
    refine ⟨rfl, ?_, rfl, ?_⟩
    · show findFirst "head" (rewriteFirst "head" _ d) = _
      rw [rewriteFirst, hrew₁, Option.getD_some]
      exact hhd₁
    · show findFirst "head" (rewriteFirst "head" _ d) = _
      rw [rewriteFirst, hrew₂, Option.getD_some]
      exact hhd₂

/-- C5 witness: both branches on concrete documents — a head whose script
already matches (`"x"`), and an empty head receiving `"y"` at the front and
at the back. -/
theorem C5_witness :
    (insertTopScript "x" [Node.elem "head" [] [newScript "x"]] =
        (false, [Node.elem "head" [] [newScript "x"]]) ∧
      insertEndScript "x" [Node.elem "head" [] [newScript "x"]] =
        (false, [Node.elem "head" [] [newScript "x"]])) ∧
    ((insertTopScript "y" [Node.elem "head" [] []]).1 = true ∧
      findFirst "head" (insertTopScript "y" [Node.elem "head" [] []]).2 =
        some (Node.elem "head" [] [newScript "y"]) ∧
      (insertEndScript "y" [Node.elem "head" [] []]).1 = true ∧
      findFirst "head" (insertEndScript "y" [Node.elem "head" [] []]).2 =
        some (Node.elem "head" [] ([] ++ [newScript "y"]))) :=
  ⟨(C5_theorem [Node.elem "head" [] [newScript "x"]] "x" [] [newScript "x"]
      (by decide)).1 (by decide),
   (C5_theorem [Node.elem "head" [] []] "y" [] [] (by decide)).2 (by decide)⟩

/-! ### Claim C7 -/

/-- C7 counterexample: a document with no head whose body already carries a
copy of the gate script.  Processing synthesizes a head but declines the
gate insertion (the body's copy matches), so the resulting head holds only
the scheduler — not both required blocks. -/
theorem C7_counterexample :
    findFirst "head" (processDoc
        [Node.elem "html" [] [Node.elem "body" [] [newScript TOP_COOKIE_GATE]]]) =
      some (Node.elem "head" [] [newScript END_SCHEDULER_BLOCK]) ∧
    find_exact_script [Node.elem "head" [] [newScript END_SCHEDULER_BLOCK]]
        TOP_COOKIE_GATE = [] := by
  decide

/-- C7 (amended): for a document with no head element (with or without an
html root) and NO pre-existing script matching either block, processing
yields a head whose children are exactly the gate script followed by the
scheduler script.  Stated for documents whose script elements contain only
text. -/
theorem C7_theorem (d : Doc) (hsto : scriptsTextOnlyL d = true)
    (hnohead : findAllL "head" d = [])
    (hg : find_exact_script d TOP_COOKIE_GATE = [])
    (hs : find_exact_script d END_SCHEDULER_BLOCK = []) :
    findFirst "head" (processDoc d) =
      some (Node.elem "head" []
        [newScript TOP_COOKIE_GATE, newScript END_SCHEDULER_BLOCK]) := by
  have hsto1 := ensure_sto hsto
  have h1 : findAllL "head" (ensure_head_exists d) = [Node.elem "head" [] []] :=
    ensure_no_head hnohead
  have hscr1 : findAllL "script" (ensure_head_exists d) = findAllL "script" d :=
    ensure_scripts hsto
  have hg1 : find_exact_script (ensure_head_exists d) TOP_COOKIE_GATE = [] := by
    simpa [find_exact_script, hscr1] using hg
  have hs1 : find_exact_script (ensure_head_exists d) END_SCHEDULER_BLOCK = [] := by
    simpa [find_exact_script, hscr1] using hs
  obtain ⟨l₂, hrew₂, hhd₂⟩ :=
    rewL_first "head" (fun cs => newScript TOP_COOKIE_GATE :: cs)
      (ensure_head_exists d) [] [] (by simp [h1])
  have hd2 : (insertTopScript TOP_COOKIE_GATE (ensure_head_exists d)).2 = l₂ := by
    rw [insertTopScript_of_not_found hg1]
    simp [rewriteFirst, hrew₂]
  -- the scheduler is still absent after the gate insertion
  obtain ⟨A, m, B, hsp1, hsp2⟩ :=
    rewL_scripts "head" (fun cs => newScript TOP_COOKIE_GATE :: cs)
      [newScript TOP_COOKIE_GATE] [] (by decide)
      (by intro c; simp [findAllL, findAllN, newScript])
      (ensure_head_exists d) l₂ hsto1 hrew₂
  have hs2 : find_exact_script l₂ END_SCHEDULER_BLOCK = [] := by
    have hnil : (findAllL "script" (ensure_head_exists d)).filter
        (matchPred END_SCHEDULER_BLOCK) = [] := hs1
    rw [hsp1, List.filter_append, List.filter_append, List.append_eq_nil,
      List.append_eq_nil] at hnil
    rw [find_exact_script, hsp2]
    simp only [List.filter_append]
    rw [hnil.1.1, hnil.1.2, hnil.2]
    simp [matchPred_gate_sched]
  obtain ⟨l₃, hrew₃, hhd₃⟩ :=
    rewL_first "head" (fun cs => cs ++ [newScript END_SCHEDULER_BLOCK])
      l₂ [] [newScript TOP_COOKIE_GATE] hhd₂
  have hfinal : processDoc d = l₃ := by
    rw [processDoc_eq, hd2, insertEndScript_of_not_found hs2]
    simp [rewriteFirst, hrew₃]
  rw [hfinal]
  exact hhd₃

/-- C7 witness: the amended claim evaluated on the empty document. -/
theorem C7_witness :
    (scriptsTextOnlyL ([] : Doc) = true ∧ findAllL "head" ([] : Doc) = [] ∧
      find_exact_script [] TOP_COOKIE_GATE = [] ∧
      find_exact_script [] END_SCHEDULER_BLOCK = []) ∧
    findFirst "head" (processDoc []) =
      some (Node.elem "head" []
        [newScript TOP_COOKIE_GATE, newScript END_SCHEDULER_BLOCK]) :=
  ⟨⟨by decide, by decide, by decide, by decide⟩,
   C7_theorem [] (by decide) (by decide) (by decide) (by decide)⟩

/-! ### Claim C4 -/

/-- `Tag.string`, when defined, agrees with `get_text()`: a single-child
chain ending in a string is exactly the subtree's concatenated text. -/
theorem stringProp_getText : ∀ n t, stringProp n = some t → getText n = t
  | .text s, t => by
    intro h
    simp only [stringProp, Option.some.injEq] at h
    simp [getText, h]
  | .elem n a [c], t => by
    intro h
    simp only [stringProp] at h
    have := stringProp_getText c t h
    simp [getText, getTextL, this]
  | .elem n a [], t => by intro h; simp [stringProp] at h
  | .elem n a (c1 :: c2 :: cs), t => by intro h; simp [stringProp] at h

/-- The text the source extracts (`s.string` with `get_text()` fallback) is
always `get_text()` — the spec's "text content (empty string if none)". -/
theorem scriptTxt_eq_getText (s : Node) : scriptTxt s = getText s := by
  cases h : stringProp s with
  | none => simp [scriptTxt, h]
  | some t => simp [scriptTxt, h, stringProp_getText s t h]

/-- Modelled from the spec's words for the normalization rule: "strip
leading/trailing whitespace from the whole text, split into lines, strip
trailing whitespace from each line, rejoin with newline". -/
def specNormalize (s : String) : List Char :=
  List.intercalate ['\n'] ((pySplitlines (pyStrip s.data)).map pyRstrip)

/-- Modelled from the claim's words for the tolerated differences: two
texts that differ only in per-line trailing whitespace or leading/trailing
blank lines (their lines agree after dropping blank boundary lines and
right-trimming each line). -/
def toleratedDiff (a b : String) : Bool :=
  let canon := fun (s : String) =>
    (((pySplitlines s.data).dropWhile (fun l => l.all pyIsSpace)).reverse.dropWhile
      (fun l => l.all pyIsSpace)).reverse.map pyRstrip
  canon a == canon b

/-- C4 counterexample: the script text `"  x"` differs from the body `"x"`
in leading whitespace on its only line — not a per-line-trailing-whitespace
nor a blank-line difference — yet `find_exact_script` matches it, because
`str.strip()` also erases leading whitespace of the whole text.  So "a
script with any other textual difference is not [treated as present]"
fails. -/
theorem C4_counterexample :
    find_exact_script [Node.elem "script" [] [Node.text "  x"]] "x" =
      [Node.elem "script" [] [Node.text "  x"]] ∧
    toleratedDiff "  x" "x" = false := by
  decide

/-- C4 (amended): `find_exact_script(doc, body)` returns exactly the script
elements of the whole document without a `src` attribute whose text content
(`get_text()`, the empty string for an empty tag) equals `body` under the
normalization: strip whole-text leading/trailing whitespace, split into
lines, strip each line's trailing whitespace, rejoin with newline.  Exactly
the differences this erases are tolerated: per-line trailing whitespace,
leading/trailing blank lines, leading whitespace before the first non-blank
character, and line-ending style; any difference surviving normalization
prevents a match. -/
theorem C4_theorem (d : Doc) (body : String) (s : Node) :
    s ∈ find_exact_script d body ↔
      (s ∈ findAllL "script" d ∧ hasAttr s "src" = false ∧
        specNormalize (getText s) = specNormalize body) := by
  rw [mem_find_exact_script]
  simp [matchPred, script_text_equal, scriptTxt_eq_getText, specNormalize,
    pyNormalize, Bool.and_eq_true, Bool.not_eq_true', beq_iff_eq, and_assoc]

/-! ### Claim C9 -/

/-- The only events a processing run may add to a document's trace: the
synthesized `html`/`head` wrappers and the two injected scripts. -/
def allowedNewEvents : List Ev :=
  [Ev.tagOpen "html" [], Ev.tagClose "html",
   Ev.tagOpen "head" [], Ev.tagClose "head",
   Ev.tagOpen "script" [], Ev.tagClose "script",
   Ev.chars TOP_COOKIE_GATE, Ev.chars END_SCHEDULER_BLOCK]

/-- Consequences of an event-splice: the old trace survives in order, the
length grows by exactly the splice, and counts of all other events are
unchanged. -/
theorem evFrame_facts {d d' : Doc} {u v : List Ev}
    (h : ∃ A m B, eventsL d = A ++ m ++ B ∧
      eventsL d' = A ++ u ++ m ++ v ++ B) :
    (eventsL d).Sublist (eventsL d') ∧
    (eventsL d').length = (eventsL d).length + (u.length + v.length) ∧
    ∀ e, e ∉ u → e ∉ v → (eventsL d').count e = (eventsL d).count e := by
  obtain ⟨A, m, B, h1, h2⟩ := h
  refine ⟨?_, ?_, ?_⟩
  · rw [h1, h2]
    simp only [List.append_assoc]
    apply List.Sublist.append_left _ A
    exact ((List.Sublist.append_left (List.sublist_append_right v B) m).trans
      (List.sublist_append_right u _))
  · rw [h1, h2]
    simp [List.length_append]
    omega
  · intro e hu hv
    rw [h1, h2]
    simp only [List.count_append]
    rw [List.count_eq_zero.mpr hu, List.count_eq_zero.mpr hv]
    omega

/-- `ensure_head_exists` splices at most the events of an empty head and an
empty html wrapper into the trace. -/
theorem ensure_frame (d : Doc) : ∃ u v : List Ev,
    (∀ x, x ∈ u ∨ x ∈ v → x ∈ allowedNewEvents) ∧
    u.length + v.length ≤ 4 ∧
    ∃ A m B, eventsL d = A ++ m ++ B ∧
      eventsL (ensure_head_exists d) = A ++ u ++ m ++ v ++ B := by
  have htriv : ∀ (l : List Node), ∃ A m B, eventsL l = A ++ m ++ B ∧
      eventsL l = A ++ [] ++ m ++ [] ++ B :=
    fun l => ⟨eventsL l, [], [], by simp, by simp⟩
  cases hfHead : findFirst "head" d with
  | some h =>
    exact ⟨[], [], by simp, by simp, by
      simp only [ensure_head_exists, hfHead]
      exact htriv d⟩
  | none =>
    cases hfHtml : findFirst "html" d with
    | none =>
      refine ⟨eventsN (Node.elem "html" [] [Node.elem "head" [] []]), [],
        ?_, by simp [eventsN, eventsL], [], eventsL d, [], by simp, ?_⟩
      · intro x hx
        rcases hx with hx | hx
        · simp only [eventsN, eventsL, List.append_nil, List.nil_append] at hx
          simp [allowedNewEvents] at hx ⊢
          tauto
        · simp at hx
      · simp only [ensure_head_exists, hfHead, hfHtml]
        simp [eventsL, eventsN]
    | some h =>
      by_cases ht : truthy h = true
      · have hres : ensure_head_exists d =
            rewriteFirst "html" (fun cs => Node.elem "head" [] [] :: cs) d := by
          simp [ensure_head_exists, hfHead, hfHtml, ht]
        rw [hres, rewriteFirst]
        cases hrew : rewL "html" (fun cs => Node.elem "head" [] [] :: cs) d with
        | none => exact ⟨[], [], by simp, by simp, by simpa using htriv d⟩
        | some l' =>
          refine ⟨[Ev.tagOpen "head" [], Ev.tagClose "head"], [],
            ?_, by simp, ?_⟩
          · intro x hx
            rcases hx with hx | hx
            · simp [allowedNewEvents] at hx ⊢
              tauto
            · simp at hx
          · simpa using
              rewL_events "html" _ [Ev.tagOpen "head" [], Ev.tagClose "head"] []
                (by intro c; simp [eventsL, eventsN]) d l' hrew
      · have hres : ensure_head_exists d =
            Node.elem "html" [] [Node.elem "head" [] []] :: d := by
          simp [ensure_head_exists, hfHead, hfHtml, ht]
        rw [hres]
        refine ⟨eventsN (Node.elem "html" [] [Node.elem "head" [] []]), [],
          ?_, by simp [eventsN, eventsL], [], eventsL d, [], by simp, ?_⟩
        · intro x hx
          rcases hx with hx | hx
          · simp only [eventsN, eventsL, List.append_nil, List.nil_append] at hx
            simp [allowedNewEvents] at hx ⊢
            tauto
          · simp at hx
        · simp [eventsL, eventsN]

/-- Either insertion stage splices at most the three events of one fresh
inline script into the trace. -/
theorem insertTop_frame (body : String) (d : Doc) : ∃ u v : List Ev,
    (∀ x, x ∈ u ∨ x ∈ v →
      x ∈ [Ev.tagOpen "script" [], Ev.chars body, Ev.tagClose "script"]) ∧
    u.length + v.length ≤ 3 ∧
    ∃ A m B, eventsL d = A ++ m ++ B ∧
      eventsL (insertTopScript body d).2 = A ++ u ++ m ++ v ++ B := by
  have htriv : ∃ A m B, eventsL d = A ++ m ++ B ∧
      eventsL d = A ++ [] ++ m ++ [] ++ B :=
    ⟨eventsL d, [], [], by simp, by simp⟩
  cases hfe : find_exact_script d body with
  | cons m ms =>
    rw [insertTopScript_of_found (by simp [hfe])]
    exact ⟨[], [], by simp, by simp, htriv⟩
  | nil =>
    rw [insertTopScript_of_not_found hfe]
    simp only [rewriteFirst]
    cases hrew : rewL "head" (fun cs => newScript body :: cs) d with
    | none => exact ⟨[], [], by simp, by simp, by simpa using htriv⟩
    | some l' =>
      refine ⟨[Ev.tagOpen "script" [], Ev.chars body, Ev.tagClose "script"], [],
        ?_, by simp, ?_⟩
      · intro x hx
        rcases hx with hx | hx
        · exact hx
        · simp at hx
      · simpa using
          rewL_events "head" _
            [Ev.tagOpen "script" [], Ev.chars body, Ev.tagClose "script"] []
            (by intro c; simp [eventsL, eventsN, newScript]) d l' hrew

/-- The append variant of `insertTop_frame`. -/
theorem insertEnd_frame (body : String) (d : Doc) : ∃ u v : List Ev,
    (∀ x, x ∈ u ∨ x ∈ v →
      x ∈ [Ev.tagOpen "script" [], Ev.chars body, Ev.tagClose "script"]) ∧
    u.length + v.length ≤ 3 ∧
    ∃ A m B, eventsL d = A ++ m ++ B ∧
      eventsL (insertEndScript body d).2 = A ++ u ++ m ++ v ++ B := by
  have htriv : ∃ A m B, eventsL d = A ++ m ++ B ∧
      eventsL d = A ++ [] ++ m ++ [] ++ B :=
    ⟨eventsL d, [], [], by simp, by simp⟩
  cases hfe : find_exact_script d body with
  | cons m ms =>
    rw [insertEndScript_of_found (by simp [hfe])]
    exact ⟨[], [], by simp, by simp, htriv⟩
  | nil =>
    rw [insertEndScript_of_not_found hfe]
    simp only [rewriteFirst]
    cases hrew : rewL "head" (fun cs => cs ++ [newScript body]) d with
    | none => exact ⟨[], [], by simp, by simp, by simpa using htriv⟩
    | some l' =>
      refine ⟨[], [Ev.tagOpen "script" [], Ev.chars body, Ev.tagClose "script"],
        ?_, by simp, ?_⟩
      · intro x hx
        rcases hx with hx | hx
        · simp at hx
        · exact hx
      · simpa using
          rewL_events "head" _ []
            [Ev.tagOpen "script" [], Ev.chars body, Ev.tagClose "script"]
            (by intro c; simp [eventsL_append, eventsL, eventsN, newScript]) d l' hrew

/-- C9: the frame property.  Processing only ever splices the synthesized
wrappers and the two canonical scripts into the pre-order trace: every
pre-existing node survives with its text and relative order (the old trace
is a sublist of the new), at most ten events are added, and the count of
every event other than the allowed insertions is unchanged. -/
theorem C9_theorem (d : Doc) :
    (eventsL d).Sublist (eventsL (processDoc d)) ∧
    (eventsL (processDoc d)).length ≤ (eventsL d).length + 10 ∧
    ∀ e, e ∉ allowedNewEvents →
      (eventsL (processDoc d)).count e = (eventsL d).count e := by
  obtain ⟨u₁, v₁, hall₁, hlen₁, hsp₁⟩ := ensure_frame d
  obtain ⟨s₁, l₁, c₁⟩ := evFrame_facts hsp₁
  obtain ⟨u₂, v₂, hall₂, hlen₂, hsp₂⟩ :=
    insertTop_frame TOP_COOKIE_GATE (ensure_head_exists d)
  obtain ⟨s₂, l₂, c₂⟩ := evFrame_facts hsp₂
  obtain ⟨u₃, v₃, hall₃, hlen₃, hsp₃⟩ :=
    insertEnd_frame END_SCHEDULER_BLOCK
      (insertTopScript TOP_COOKIE_GATE (ensure_head_exists d)).2
  obtain ⟨s₃, l₃, c₃⟩ := evFrame_facts hsp₃
  have hgate : ∀ x, x ∈ [Ev.tagOpen "script" [], Ev.chars TOP_COOKIE_GATE,
      Ev.tagClose "script"] → x ∈ allowedNewEvents := by
    intro x hx
    simp only [List.mem_cons, List.not_mem_nil, or_false] at hx
    rcases hx with h | h | h <;> simp [allowedNewEvents, h]
  have hsched : ∀ x, x ∈ [Ev.tagOpen "script" [], Ev.chars END_SCHEDULER_BLOCK,
      Ev.tagClose "script"] → x ∈ allowedNewEvents := by
    intro x hx
    simp only [List.mem_cons, List.not_mem_nil, or_false] at hx
    rcases hx with h | h | h <;> simp [allowedNewEvents, h]
  rw [processDoc_eq]
  refine ⟨(s₁.trans s₂).trans s₃, by omega, ?_⟩
  intro e he
  have he₁u : e ∉ u₁ := fun h => he (hall₁ e (Or.inl h))
  have he₁v : e ∉ v₁ := fun h => he (hall₁ e (Or.inr h))
  have he₂u : e ∉ u₂ := fun h => he (hgate e (hall₂ e (Or.inl h)))
  have he₂v : e ∉ v₂ := fun h => he (hgate e (hall₂ e (Or.inr h)))
  have he₃u : e ∉ u₃ := fun h => he (hsched e (hall₃ e (Or.inl h)))
  have he₃v : e ∉ v₃ := fun h => he (hsched e (hall₃ e (Or.inr h)))
  rw [c₃ e he₃u he₃v, c₂ e he₂u he₂v, c₁ e he₁u he₁v]

/-- C9 witness: the frame property evaluated on a one-paragraph document
and the event "a `body` tag opens". -/
theorem C9_witness :
    (eventsL [Node.elem "body" [] [Node.text "x"]]).Sublist
      (eventsL (processDoc [Node.elem "body" [] [Node.text "x"]])) ∧
    Ev.tagOpen "body" [] ∉ allowedNewEvents ∧
    (eventsL (processDoc [Node.elem "body" [] [Node.text "x"]])).count
        (Ev.tagOpen "body" []) =
      (eventsL [Node.elem "body" [] [Node.text "x"]]).count (Ev.tagOpen "body" []) :=
  ⟨(C9_theorem [Node.elem "body" [] [Node.text "x"]]).1,
   by decide,
   (C9_theorem [Node.elem "body" [] [Node.text "x"]]).2.2
     (Ev.tagOpen "body" []) (by decide)⟩

/-! ### The file-level pipeline

`process_file` reads raw bytes (`path.read_text(encoding="utf-8",
errors="ignore")`), parses leniently (`BeautifulSoup(html, "html.parser")`),
mutates the tree, copies the original bytes to `path + ".bak"`
(`shutil.copyfile`), and overwrites `path` with `str(soup)` encoded as
UTF-8.  The pieces below embed the library semantics the source leans on:
CPython's UTF-8 codec (strict and `ignore` error modes), a lenient
fuel-bounded HTML parser in the spirit of `html.parser` (never failing on
any input), and bs4's minimal-escaping serializer. -/

/-- Decode one UTF-8 sequence: the code point and how many continuation
bytes were consumed.  Rejects stray continuation bytes, overlong forms,
surrogates and values beyond U+10FFFF, exactly as CPython's strict
decoder does. -/
def utf8DecodeOne : List Nat → Option (Char × Nat)
  | [] => none
  | b :: rest =>
    if b < 0x80 then some (Char.ofNat b, 0)
    else if b < 0xc2 then none
    else if b < 0xe0 then
      match rest with
      | b2 :: _ =>
        if 0x80 ≤ b2 && b2 < 0xc0 then
          some (Char.ofNat ((b - 0xc0) * 64 + (b2 - 0x80)), 1)
        else none
      | [] => none
    else if b < 0xf0 then
      match rest with
      | b2 :: b3 :: _ =>
        let lo2 := if b = 0xe0 then 0xa0 else 0x80
        let hi2 := if b = 0xed then 0x9f else 0xbf
        if lo2 ≤ b2 && b2 ≤ hi2 && 0x80 ≤ b3 && b3 < 0xc0 then
          some (Char.ofNat ((b - 0xe0) * 4096 + (b2 - 0x80) * 64 + (b3 - 0x80)), 2)
        else none
      | _ => none
    else if b < 0xf5 then
      match rest with
      | b2 :: b3 :: b4 :: _ =>
        let lo2 := if b = 0xf0 then 0x90 else 0x80
        let hi2 := if b = 0xf4 then 0x8f else 0xbf
        if lo2 ≤ b2 && b2 ≤ hi2 && 0x80 ≤ b3 && b3 < 0xc0 &&
            0x80 ≤ b4 && b4 < 0xc0 then
          some (Char.ofNat ((b - 0xf0) * 0x40000 + (b2 - 0x80) * 4096 +
            (b3 - 0x80) * 64 + (b4 - 0x80)), 3)
        else none
      | _ => none
    else none

/-- The decoding loop of `bytes.decode("utf-8", errors)`: on an invalid
sequence, strict mode fails, `ignore` mode skips one byte and resumes (the
skipped lead byte's continuation bytes then fail individually and are
skipped too, matching CPython's behavior). -/
def utf8DecodeLoop (ignore : Bool) : Nat → List Nat → Option (List Char)
  | _, [] => some []
  | 0, _ :: _ => none
  | fuel + 1, b :: rest =>
    match utf8DecodeOne (b :: rest) with
    | some (c, k) => (utf8DecodeLoop ignore fuel (rest.drop k)).map (c :: ·)
    | none => if ignore then utf8DecodeLoop ignore fuel rest else none

/-- `bytes.decode("utf-8", errors)` with `errors` either `"strict"`
(`ignore = false`) or `"ignore"` (`ignore = true`). -/
def pyBytesDecode (ignore : Bool) (bs : List Nat) : Option (List Char) :=
  utf8DecodeLoop ignore bs.length bs

/-! #### A lenient `html.parser`-style parser

Fuel-bounded and total by construction: any character stream produces a
document.  Tag names are lowercased, void elements self-close,
`script`/`style` content is raw text up to the matching end tag, unknown
end tags are ignored, and everything still open at end of input is closed
(`html.parser` raises on no input). -/

/-- Void (self-closing) HTML elements, as `html.parser` treats them. -/
def voidElems : List String :=
  ["area", "base", "br", "col", "embed", "hr", "img", "input", "link",
   "meta", "param", "source", "track", "wbr"]

/-- Characters allowed in a tag name. -/
def isNameChar (c : Char) : Bool :=
  c.isAlphanum || c = '-' || c = ':'

/-- Lowercase a name the way `html.parser` does. -/
def lowerStr (s : List Char) : String :=
  String.mk (s.map Char.toLower)

/-- An open element on the parser stack: name, attributes, and the children
collected so far in reverse order. -/
abbrev Frame := String × List (String × String) × List Node

/-- Add a completed node to the innermost open element (or to the top
level). -/
def pushNode (stack : List Frame) (acc : List Node) (node : Node) :
    List Frame × List Node :=
  match stack with
  | [] => ([], node :: acc)
  | (n, a, ch) :: rest => ((n, a, node :: ch) :: rest, acc)

/-- Is an element with this name currently open? -/
def hasOpen (name : String) (stack : List Frame) : Bool :=
  stack.any (fun f => f.1 = name)

/-- Merge an already-closed node into successive frames, closing each,
until a frame with the given name has been closed. -/
def closeUntilAux (name : String) : Node → List Frame → List Node →
    List Frame × List Node
  | node, [], acc => ([], node :: acc)
  | node, (n, a, ch) :: rest, acc =>
    let merged := Node.elem n a (node :: ch).reverse
    if n = name then pushNode rest acc merged
    else closeUntilAux name merged rest acc

/-- Close elements until one with the given name has been closed (callers
guard with `hasOpen`). -/
def closeUntil (name : String) : List Frame → List Node → List Frame × List Node
  | [], acc => ([], acc)
  | (n, a, ch) :: rest, acc =>
    let node := Node.elem n a ch.reverse
    if n = name then pushNode rest acc node
    else closeUntilAux name node rest acc

/-- Merge an already-closed node into all remaining frames. -/
def finalizeAux : Node → List Frame → List Node → Doc
  | node, [], acc => (node :: acc).reverse
  | node, (n, a, ch) :: rest, acc =>
    finalizeAux (Node.elem n a (node :: ch).reverse) rest acc

/-- Close everything still open at end of input. -/
def finalize : List Frame → List Node → Doc
  | [], acc => acc.reverse
  | (n, a, ch) :: rest, acc => finalizeAux (Node.elem n a ch.reverse) rest acc

/-- Drop characters up to and including the next `'>'`. -/
def dropPastGt : List Char → List Char
  | [] => []
  | '>' :: rest => rest
  | _ :: rest => dropPastGt rest

/-- Parse the attribute list of a start tag, up to the closing `'>'`;
reports whether the tag ended in `"/>"`. -/
def parseAttrs : Nat → List Char → List (String × String) →
    List (String × String) × Bool × List Char
  | 0, cs, acc => (acc.reverse, false, cs)
  | _ + 1, [], acc => (acc.reverse, false, [])
  | fuel + 1, c :: cs, acc =>
    if pyIsSpace c then parseAttrs fuel cs acc
    else if c = '>' then (acc.reverse, false, cs)
    else if c = '/' then
      match cs with
      | '>' :: cs' => (acc.reverse, true, cs')
      | _ => parseAttrs fuel cs acc
    else
      let (nm, cs₁) := (c :: cs).span fun ch =>
        !(pyIsSpace ch) && ch ≠ '=' && ch ≠ '>' && ch ≠ '/'
      match cs₁ with
      | '=' :: '"' :: cs₂ =>
        let (v, cs₃) := cs₂.span (· ≠ '"')
        parseAttrs fuel (cs₃.drop 1) ((lowerStr nm, String.mk v) :: acc)
      | '=' :: '\'' :: cs₂ =>
        let (v, cs₃) := cs₂.span (· ≠ '\'')
        parseAttrs fuel (cs₃.drop 1) ((lowerStr nm, String.mk v) :: acc)
      | '=' :: cs₂ =>
        let (v, cs₃) := cs₂.span fun ch => !(pyIsSpace ch) && ch ≠ '>'
        parseAttrs fuel cs₃ ((lowerStr nm, String.mk v) :: acc)
      | _ => parseAttrs fuel cs₁ ((lowerStr nm, "") :: acc)

/-- Split raw CDATA content: everything before `"</" ++ name`, and the rest
starting at that end tag (all of it when the end tag never comes). -/
def splitCdata (name : List Char) : Nat → List Char → List Char × List Char
  | 0, cs => (cs, [])
  | _ + 1, [] => ([], [])
  | fuel + 1, c :: cs =>
    if c = '<' ∧ (cs.take (name.length + 1)).map Char.toLower = '/' :: name then
      ([], c :: cs)
    else
      let (pre, post) := splitCdata name fuel cs
      (c :: pre, post)

/-- The main parsing loop. -/
def parseLoop : Nat → List Char → List Frame → List Node → Doc
  | 0, _, stack, acc => finalize stack acc
  | _ + 1, [], stack, acc => finalize stack acc
  | fuel + 1, '<' :: rest, stack, acc =>
    match rest with
    | '/' :: rest₂ =>
      let (nm, rest₃) := rest₂.span isNameChar
      let rest₄ := dropPastGt rest₃
      if nm = [] then
        let s' := pushNode stack acc (Node.text "</")
        parseLoop fuel rest₂ s'.1 s'.2
      else
        let name := lowerStr nm
        if hasOpen name stack then
          let s' := closeUntil name stack acc
          parseLoop fuel rest₄ s'.1 s'.2
        else
          parseLoop fuel rest₄ stack acc
    | '!' :: rest₂ => parseLoop fuel (dropPastGt rest₂) stack acc
    | '?' :: rest₂ => parseLoop fuel (dropPastGt rest₂) stack acc
    | [] =>
      let s' := pushNode stack acc (Node.text "<")
      finalize s'.1 s'.2
    | c :: _ =>
      if c.isAlpha then
        let (nm, rest₃) := rest.span isNameChar
        let name := lowerStr nm
        let (attrs, selfClose, rest₄) := parseAttrs (rest₃.length + 1) rest₃ []
        if selfClose || name ∈ voidElems then
          let s' := pushNode stack acc (Node.elem name attrs [])
          parseLoop fuel rest₄ s'.1 s'.2
        else if name = "script" || name = "style" then
          let (raw, rest₅) := splitCdata name.data (rest₄.length + 1) rest₄
          let content : List Node :=
            if raw = [] then [] else [Node.text (String.mk raw)]
          let s' := pushNode stack acc (Node.elem name attrs content)
          parseLoop fuel (dropPastGt (rest₅.drop 1)) s'.1 s'.2
        else
          parseLoop fuel rest₄ ((name, attrs, []) :: stack) acc
      else
        let s' := pushNode stack acc (Node.text "<")
        parseLoop fuel rest s'.1 s'.2
  | fuel + 1, cs, stack, acc =>
    let (txt, rest) := cs.span (· ≠ '<')
    let s' := pushNode stack acc (Node.text (String.mk txt))
    parseLoop fuel rest s'.1 s'.2

/-- `BeautifulSoup(html, "html.parser")`: lenient, total parsing. -/
def parseHTML (s : String) : Doc :=
  parseLoop (s.data.length + 1) s.data [] []

/-- `load`: read bytes as best-effort UTF-8 (`errors="ignore"`) and parse
leniently. -/
def load (bs : List Nat) : Option Doc :=
  (pyBytesDecode true bs).map (fun cs => parseHTML (String.mk cs))

/-! #### Serialization (`str(soup)`) and UTF-8 encoding -/

/-- bs4's minimal formatter escaping for text nodes. -/
def escChars : List Char → List Char
  | [] => []
  | '&' :: r => '&' :: 'a' :: 'm' :: 'p' :: ';' :: escChars r
  | '<' :: r => '&' :: 'l' :: 't' :: ';' :: escChars r
  | '>' :: r => '&' :: 'g' :: 't' :: ';' :: escChars r
  | c :: r => c :: escChars r

/-- bs4's escaping inside double-quoted attribute values. -/
def escAttrChars : List Char → List Char
  | [] => []
  | '&' :: r => '&' :: 'a' :: 'm' :: 'p' :: ';' :: escAttrChars r
  | '"' :: r => '&' :: 'q' :: 'u' :: 'o' :: 't' :: ';' :: escAttrChars r
  | c :: r => c :: escAttrChars r

/-- Render an attribute list. -/
def attrsStr : List (String × String) → String
  | [] => ""
  | (k, v) :: r => " " ++ k ++ "=\"" ++ String.mk (escAttrChars v.data) ++ "\"" ++ attrsStr r

mutual

/-- Render one node the way `str(soup)` does (minimal escaping, raw
`script`/`style` content, self-closed void elements). -/
def renderN : Node → String
  | .text s => String.mk (escChars s.data)
  | .elem n a c =>
    if c.isEmpty && n ∈ voidElems then "<" ++ n ++ attrsStr a ++ "/>"
    else
      let inner := if n = "script" || n = "style" then getTextL c else renderL c
      "<" ++ n ++ attrsStr a ++ ">" ++ inner ++ "</" ++ n ++ ">"

/-- Render a forest. -/
def renderL : List Node → String
  | [] => ""
  | x :: xs => renderN x ++ renderL xs

end

/-- `str(soup)`. -/
def serialize (d : Doc) : String := renderL d

/-- UTF-8 encoding of one character. -/
def utf8EncodeChar (c : Char) : List Nat :=
  let n := c.toNat
  if n < 0x80 then [n]
  else if n < 0x800 then [0xc0 + n / 64, 0x80 + n % 64]
  else if n < 0x10000 then
    [0xe0 + n / 4096, 0x80 + (n / 64) % 64, 0x80 + n % 64]
  else
    [0xf0 + n / 0x40000, 0x80 + (n / 4096) % 64, 0x80 + (n / 64) % 64,
     0x80 + n % 64]

/-- UTF-8 encoding of a character list (`str.encode("utf-8")`, which cannot
fail on parser output). -/
def utf8Encode : List Char → List Nat
  | [] => []
  | c :: r => utf8EncodeChar c ++ utf8Encode r

/-! #### The file system model -/

/-- A file system: paths to byte contents. -/
def FS := String → Option (List Nat)

/-- Overwrite one file. -/
def fsUpdate (fs : FS) (p : String) (content : List Nat) : FS :=
  fun q => if q = p then some content else fs q

/-- `path.with_suffix(path.suffix + ".bak")`: for any path with a normal
suffix (in particular every `*.html` file the walker yields) this appends
`".bak"`. -/
def backupPath (p : String) : String := p ++ ".bak"

/-- The bytes `process_file` writes back over the input file, as a function
of the input file's bytes alone. -/
def processContent (bs : List Nat) : Option (List Nat) :=
  (load bs).map fun d => utf8Encode (serialize (processDoc d)).data

/-- The write operations `process_file` performs, in program order: first
the backup copy of the original bytes, then the serialized overwrite. -/
def processFileWrites (p : String) (fs : FS) : Option (List (String × List Nat)) :=
  (fs p).bind fun orig =>
    (processContent orig).map fun out => [(backupPath p, orig), (p, out)]

/-- `process_file(path)` as a file-system transformer: applies the writes
in order. -/
def processFile (p : String) (fs : FS) : Option FS :=
  (processFileWrites p fs).map fun ws =>
    ws.foldl (fun acc w => fsUpdate acc w.1 w.2) fs

/-! ### Claim C8 -/

/-- The `ignore`-mode decoding loop succeeds on any byte list, given enough
fuel (one unit per byte suffices: every step consumes at least one byte). -/
theorem utf8DecodeLoop_total :
    ∀ fuel bs, bs.length ≤ fuel → (utf8DecodeLoop true fuel bs).isSome = true
  | fuel, [] => by
    intro _
    cases fuel <;> simp [utf8DecodeLoop]
  | 0, b :: rest => by
    intro h
    simp at h
  | fuel + 1, b :: rest => by
    intro h
    have hr : rest.length ≤ fuel := by
      simp only [List.length_cons] at h
      omega
    simp only [utf8DecodeLoop]
    cases hone : utf8DecodeOne (b :: rest) with
    | some ck =>
      obtain ⟨c, k⟩ := ck
      have hk : (rest.drop k).length ≤ fuel := by
        simp only [List.length_drop]
        omega
      have ih := utf8DecodeLoop_total fuel (rest.drop k) hk
      cases hl : utf8DecodeLoop true fuel (rest.drop k) with
      | none => rw [hl] at ih; simp at ih
      | some cs => simp [hl]
    | none =>
      simpa using utf8DecodeLoop_total fuel rest hr

/-- `bytes.decode("utf-8", errors="ignore")` never fails. -/
theorem pyBytesDecode_ignore_total (bs : List Nat) :
    (pyBytesDecode true bs).isSome = true :=
  utf8DecodeLoop_total bs.length bs (le_refl _)

/-- C8: `load` is total over arbitrary byte content — best-effort decoding
ignores undecodable bytes instead of failing (where strict decoding would
fail, as the `0xff` example shows), and the lenient parser turns any
character stream into a document. -/
theorem C8_theorem (bs : List Nat) :
    (∃ cs, pyBytesDecode true bs = some cs ∧
      load bs = some (parseHTML (String.mk cs))) ∧
    pyBytesDecode false [0xff, 0x41] = none ∧
    pyBytesDecode true [0xff, 0x41] = some ['A'] := by
  refine ⟨?_, by decide, by decide⟩
  have h := pyBytesDecode_ignore_total bs
  cases hd : pyBytesDecode true bs with
  | none => rw [hd] at h; simp at h
  | some cs => exact ⟨cs, rfl, by simp [load, hd]⟩

/-! ### Claim C6 -/

/-- C6: for every readable input file, processing performs exactly two
writes, in this order: first the unconditional backup of the original bytes
to the `".bak"` path, then the serialized overwrite of the original path —
so the backup always holds the pre-mutation contents and precedes the
overwrite. -/
theorem C6_theorem (p : String) (fs : FS) (orig : List Nat)
    (h : fs p = some orig) :
    ∃ out, processContent orig = some out ∧
      processFileWrites p fs = some [(backupPath p, orig), (p, out)] ∧
      processFile p fs =
        some (fsUpdate (fsUpdate fs (backupPath p) orig) p out) := by
  have ht := pyBytesDecode_ignore_total orig
  cases hd : pyBytesDecode true orig with
  | none => rw [hd] at ht; simp at ht
  | some cs =>
    refine ⟨utf8Encode (serialize (processDoc (parseHTML (String.mk cs)))).data,
      ?_, ?_, ?_⟩
    · simp [processContent, load, hd]
    · simp [processFileWrites, h, processContent, load, hd]
    · simp [processFile, processFileWrites, h, processContent, load, hd,
        List.foldl]

/-- C6 witness: the write sequence on a one-file file system holding the
single byte `'<'`. -/
theorem C6_witness :
    ∃ out, processContent [60] = some out ∧
      processFileWrites "index.html"
          (fun q => if q = "index.html" then some [60] else none) =
        some [(backupPath "index.html", [60]), ("index.html", out)] ∧
      processFile "index.html"
          (fun q => if q = "index.html" then some [60] else none) =
        some (fsUpdate (fsUpdate
          (fun q => if q = "index.html" then some [60] else none)
          (backupPath "index.html") [60]) "index.html" out) :=
  C6_theorem "index.html" (fun q => if q = "index.html" then some [60] else none)
    [60] (by simp)

/-! ### Claim C10 -/

/-- C10: processing is deterministic — the written contents are a function
of the file's byte content alone, so two files with identical contents get
identical backups and identical serialized outputs; and the only source of
randomness (the 10000–25000 ms interval) occurs as literal TEXT inside the
injected scheduler script, not in the gate script and not in the program's
own control flow (which, being a pure function here, has none). -/
theorem C10_theorem (p₁ p₂ : String) (fs₁ fs₂ : FS) (b : List Nat)
    (h₁ : fs₁ p₁ = some b) (h₂ : fs₂ p₂ = some b) :
    (∃ out, processFileWrites p₁ fs₁ = some [(backupPath p₁, b), (p₁, out)] ∧
      processFileWrites p₂ fs₂ = some [(backupPath p₂, b), (p₂, out)]) ∧
    List.IsInfix "Math.random() * (25000 - 10000 + 1)) + 10000".data
      END_SCHEDULER_BLOCK.data ∧
    ¬List.IsInfix "Math.random".data TOP_COOKIE_GATE.data := by
  refine ⟨?_, by decide, by decide⟩
  have ht := pyBytesDecode_ignore_total b
  cases hd : pyBytesDecode true b with
  | none => rw [hd] at ht; simp at ht
  | some cs =>
    exact ⟨utf8Encode (serialize (processDoc (parseHTML (String.mk cs)))).data,
      by simp [processFileWrites, h₁, processContent, load, hd],
      by simp [processFileWrites, h₂, processContent, load, hd]⟩

/-- C10 witness: two one-file file systems with the same single-byte
content under different paths. -/
theorem C10_witness :
    (∃ out, processFileWrites "a.html"
          (fun q => if q = "a.html" then some [60] else none) =
        some [(backupPath "a.html", [60]), ("a.html", out)] ∧
      processFileWrites "b.html"
          (fun q => if q = "b.html" then some [60] else none) =
        some [(backupPath "b.html", [60]), ("b.html", out)]) ∧
    List.IsInfix "Math.random() * (25000 - 10000 + 1)) + 10000".data
      END_SCHEDULER_BLOCK.data ∧
    ¬List.IsInfix "Math.random".data TOP_COOKIE_GATE.data :=
  C10_theorem "a.html" "b.html"
    (fun q => if q = "a.html" then some [60] else none)
    (fun q => if q = "b.html" then some [60] else none) [60] (by simp) (by simp)

end FixCookies
